import Mathlib

/-!
# Verification of the memorai in-process search and recommendation core

Shallow embedding of `src/lib/smartSearch.ts` and `src/lib/recommender.ts`.

Modelling conventions:
* JS strings are modelled as `String` / `List Char` at the code-point level
  (the inputs of interest are ASCII, where UTF-16 code units and code points
  coincide).
* JS `toLowerCase` is modelled for the ASCII range (`A`-`Z` map to `a`-`z`).
* JS regular-expression character classes `\w` and `\s` are modelled by their
  ASCII members (`[A-Za-z0-9_]` and common whitespace).
* JS `String.prototype.split` on a separator regex may produce empty tokens
  at the edges; every call site in the source immediately filters tokens by a
  positive length bound, so splitting is modelled as the list of maximal
  nonempty separator-free runs, which agrees after that filter.
* JS floating-point arithmetic on similarity scores is modelled exactly in
  `ℚ`; every comparison performed by the code keeps the same verdict under
  exact arithmetic at the inputs considered here.
* JS `Infinity` results are modelled with `Option` (`none` = Infinity).
-/

namespace Memorai

/-- ASCII model of JS `toLowerCase` on a single character. -/
def jsLowerChar (c : Char) : Char :=
  if 'A' ≤ c ∧ c ≤ 'Z' then Char.ofNat (c.toNat + 32) else c

/-- ASCII model of JS `toLowerCase` on a character list. -/
def jsLower (l : List Char) : List Char := l.map jsLowerChar

/-- Membership in the JS regex class `\w` (ASCII). -/
def isWordChar (c : Char) : Bool :=
  ('a' ≤ c && c ≤ 'z') || ('A' ≤ c && c ≤ 'Z') || ('0' ≤ c && c ≤ '9') || c == '_'

/-- Membership in the JS regex class `\s` (ASCII members). -/
def isSpaceChar (c : Char) : Bool :=
  c == ' ' || c == '\t' || c == '\n' || c == '\x0d' || c == '\x0b' || c == '\x0c'

/-- Model of JS `String.prototype.trim` (ASCII whitespace). -/
def jsTrimL (l : List Char) : List Char :=
  ((l.dropWhile isSpaceChar).reverse.dropWhile isSpaceChar).reverse

/-- `trim` on `String`s. -/
def jsTrimS (s : String) : String := String.mk (jsTrimL s.data)

/-- Accumulator-based splitter: maximal nonempty runs of characters on which
`p` is false.  Models JS `split` on a separator class followed by the length
filters every call site applies (which discard JS's empty tokens). -/
def splitAux (p : Char → Bool) : List Char → List Char → List (List Char)
  | [], acc => if acc.isEmpty then [] else [acc.reverse]
  | c :: cs, acc =>
      if p c then
        (if acc.isEmpty then splitAux p cs [] else acc.reverse :: splitAux p cs [])
      else splitAux p cs (c :: acc)

/-- Split into maximal separator-free runs. -/
def splitOnPred (p : Char → Bool) (l : List Char) : List (List Char) := splitAux p l []

/-! ### Structural facts about `splitOnPred` -/

theorem splitAux_tokens (p : Char → Bool) :
    ∀ (l acc : List Char), (∀ c ∈ acc, p c = false) →
      ∀ x ∈ splitAux p l acc, x ≠ [] ∧ ∀ c ∈ x, p c = false := by
  intro l
  induction l with
  | nil =>
      intro acc hacc x hx
      simp only [splitAux] at hx
      by_cases h : acc.isEmpty
      · simp [h] at hx
      · simp [h] at hx
        subst hx
        refine ⟨?_, ?_⟩
        · simpa [List.isEmpty_iff] using h
        · intro c hc
          exact hacc c (by simpa using hc)
  | cons c cs ih =>
      intro acc hacc x hx
      simp only [splitAux] at hx
      by_cases hp : p c
      · simp only [hp, if_true] at hx
        by_cases he : acc.isEmpty
        · simp only [he, if_true] at hx
          exact ih [] (by simp) x hx
        · simp only [he, if_false] at hx
          rcases List.mem_cons.mp hx with h1 | h1
          · subst h1
            refine ⟨by simpa [List.isEmpty_iff] using he, ?_⟩
            intro d hd
            exact hacc d (by simpa using hd)
          · exact ih [] (by simp) x h1
      · simp only [hp, if_false] at hx
        refine ih (c :: acc) ?_ x hx
        intro d hd
        rcases List.mem_cons.mp hd with h | h
        · subst h; simpa using hp
        · exact hacc d h

/-- Every token of `splitOnPred` is nonempty and separator-free. -/
theorem splitOnPred_tokens (p : Char → Bool) (l : List Char) :
    ∀ x ∈ splitOnPred p l, x ≠ [] ∧ ∀ c ∈ x, p c = false :=
  splitAux_tokens p l [] (by simp)

theorem splitAux_all_keep (p : Char → Bool) :
    ∀ (l acc : List Char), (∀ c ∈ l, p c = false) → (acc ≠ [] ∨ l ≠ []) →
      splitAux p l acc = [acc.reverse ++ l] := by
  intro l
  induction l with
  | nil =>
      intro acc _ hne
      rcases hne with h | h
      · simp [splitAux, List.isEmpty_iff, h]
      · simp at h
  | cons c cs ih =>
      intro acc hl _
      have hc : p c = false := hl c (by simp)
      simp only [splitAux, hc, if_false]
      rw [ih (c :: acc) (fun d hd => hl d (by simp [hd])) (Or.inl (by simp))]
      simp

/-- A nonempty separator-free list splits into the single token equal to
itself. -/
theorem splitOnPred_single (p : Char → Bool) (l : List Char)
    (hl : ∀ c ∈ l, p c = false) (hne : l ≠ []) : splitOnPred p l = [l] := by
  simpa using splitAux_all_keep p l [] hl (Or.inr hne)

theorem splitAux_context (p : Char → Bool) :
    ∀ (l acc : List Char), (∀ c ∈ acc, p c = false) →
      ∀ x ∈ splitAux p l acc,
        ∃ pre post, acc.reverse ++ l = pre ++ x ++ post ∧
          (pre = [] ∨ ∃ pre0 d, pre = pre0 ++ [d] ∧ p d = true) ∧
          (post = [] ∨ ∃ d post0, post = d :: post0 ∧ p d = true) := by
  intro l
  induction l with
  | nil =>
      intro acc _ x hx
      simp only [splitAux] at hx
      by_cases h : acc.isEmpty
      · simp [h] at hx
      · simp [h] at hx
        subst hx
        exact ⟨[], [], by simp, Or.inl rfl, Or.inl rfl⟩
  | cons c cs ih =>
      intro acc hacc x hx
      simp only [splitAux] at hx
      by_cases hp : p c
      · simp only [hp, if_true] at hx
        by_cases he : acc.isEmpty
        · simp only [he, if_true] at hx
          have hae : acc = [] := List.isEmpty_iff.mp he
          subst hae
          obtain ⟨pre, post, heq, hpre, hpost⟩ := ih [] (by simp) x hx
          simp only [List.reverse_nil, List.nil_append] at heq
          refine ⟨c :: pre, post, by simp [heq], Or.inr ?_, hpost⟩
          rcases hpre with h | ⟨pre0, d, hpd, hd⟩
          · exact ⟨[], c, by simp [h], hp⟩
          · exact ⟨c :: pre0, d, by simp [hpd], hd⟩
        · simp only [he, if_false] at hx
          rcases List.mem_cons.mp hx with h1 | h1
          · subst h1
            exact ⟨[], c :: cs, by simp, Or.inl rfl, Or.inr ⟨c, cs, rfl, hp⟩⟩
          · obtain ⟨pre, post, heq, hpre, hpost⟩ := ih [] (by simp) x h1
            simp only [List.reverse_nil, List.nil_append] at heq
            refine ⟨acc.reverse ++ c :: pre, post, by simp [heq], Or.inr ?_, hpost⟩
            rcases hpre with h | ⟨pre0, d, hpd, hd⟩
            · exact ⟨acc.reverse, c, by simp [h], hp⟩
            · exact ⟨acc.reverse ++ c :: pre0, d, by simp [hpd], hd⟩
      · simp only [hp, if_false] at hx
        have hacc' : ∀ d ∈ c :: acc, p d = false := by
          intro d hd
          rcases List.mem_cons.mp hd with h | h
          · subst h; simpa using hp
          · exact hacc d h
        obtain ⟨pre, post, heq, hpre, hpost⟩ := ih (c :: acc) hacc' x hx
        refine ⟨pre, post, ?_, hpre, hpost⟩
        simpa using heq

/-- Every token of `splitOnPred` occurs in the input flanked by separators
(or the edges of the list). -/
theorem splitOnPred_context (p : Char → Bool) (l : List Char) :
    ∀ x ∈ splitOnPred p l,
      ∃ pre post, l = pre ++ x ++ post ∧
        (pre = [] ∨ ∃ pre0 d, pre = pre0 ++ [d] ∧ p d = true) ∧
        (post = [] ∨ ∃ d post0, post = d :: post0 ∧ p d = true) := by
  intro x hx
  simpa using splitAux_context p l [] (by simp) x hx

/-! ### Phonetic hasher (`phoneticHash`) -/

/-- The fixed Soundex-style digit table of `phoneticHash` (`'0'` for keys
absent from the JS map). -/
def digitOf (c : Char) : Char :=
  if c == 'b' || c == 'f' || c == 'p' || c == 'v' then '1'
  else if c == 'c' || c == 'g' || c == 'j' || c == 'k' || c == 'q' || c == 's'
      || c == 'x' || c == 'z' then '2'
  else if c == 'd' || c == 't' then '3'
  else if c == 'l' then '4'
  else if c == 'm' || c == 'n' then '5'
  else if c == 'r' then '6'
  else '0'

/-- The appending loop of `phoneticHash`: walks the remaining lowercased
characters with the previous digit and the remaining capacity
(4 minus the current result length). -/
def phonLoop : List Char → Char → Nat → List Char
  | [], _, _ => []
  | c :: cs, prev, cap =>
      if cap = 0 then []
      else if digitOf c ≠ '0' ∧ digitOf c ≠ prev then
        digitOf c :: phonLoop cs (digitOf c) (cap - 1)
      else phonLoop cs (digitOf c) cap

/-- JS `padEnd(4, '0')` (the argument is never longer than 4 here). -/
def padEnd4 (l : List Char) : List Char := l ++ List.replicate (4 - l.length) '0'

/-- `phoneticHash` on character lists. -/
def phoneticHashL (word : List Char) : List Char :=
  match word with
  | [] => []
  | c0 :: rest =>
      let w0 := jsLowerChar c0
      padEnd4 (w0 :: phonLoop (rest.map jsLowerChar) (digitOf w0) 3)

/-- `phoneticHash` on `String`s. -/
def phoneticHashS (word : String) : String := String.mk (phoneticHashL word.data)

theorem digitOf_mem (c : Char) :
    digitOf c ∈ ['0', '1', '2', '3', '4', '5', '6'] := by
  unfold digitOf
  split
  · decide
  split
  · decide
  split
  · decide
  split
  · decide
  split
  · decide
  split
  · decide
  · decide

theorem phonLoop_length : ∀ (l : List Char) (prev : Char) (cap : Nat),
    (phonLoop l prev cap).length ≤ cap := by
  intro l
  induction l with
  | nil => intro prev cap; simp [phonLoop]
  | cons c cs ih =>
      intro prev cap
      simp only [phonLoop]
      by_cases hc : cap = 0
      · rw [if_pos hc]; simp
      · rw [if_neg hc]
        by_cases hcode : digitOf c ≠ '0' ∧ digitOf c ≠ prev
        · rw [if_pos hcode, List.length_cons]
          have := ih (digitOf c) (cap - 1)
          omega
        · rw [if_neg hcode]
          exact ih (digitOf c) cap

theorem phonLoop_digits : ∀ (l : List Char) (prev : Char) (cap : Nat),
    ∀ c ∈ phonLoop l prev cap, c ∈ ['1', '2', '3', '4', '5', '6'] := by
  intro l
  induction l with
  | nil => intro prev cap c hc; simp [phonLoop] at hc
  | cons d cs ih =>
      intro prev cap c hc
      simp only [phonLoop] at hc
      by_cases hcap : cap = 0
      · rw [if_pos hcap] at hc; simp at hc
      · rw [if_neg hcap] at hc
        by_cases hcode : digitOf d ≠ '0' ∧ digitOf d ≠ prev
        · rw [if_pos hcode] at hc
          rcases List.mem_cons.mp hc with h1 | h1
          · subst h1
            have h0 := hcode.1
            have hm' : digitOf d = '0' ∨ digitOf d = '1' ∨ digitOf d = '2' ∨
                digitOf d = '3' ∨ digitOf d = '4' ∨ digitOf d = '5' ∨
                digitOf d = '6' := by simpa using digitOf_mem d
            rcases hm' with h | h | h | h | h | h | h
            · exact absurd h h0
            all_goals simp [h]
          · exact ih (digitOf d) (cap - 1) c h1
        · rw [if_neg hcode] at hc
          exact ih (digitOf d) cap c hc

/-- C9: for every non-empty word the phonetic hash has exactly 4 characters,
its first character is the lowercased first character of the word and the
rest are digits; the empty word hashes to the empty string. -/
theorem phoneticHash_shape_aux (w : String) (h : w ≠ "") :
    (phoneticHashS w).length = 4 ∧
      (phoneticHashS w).data.headD ' ' = jsLowerChar (w.data.headD ' ') ∧
      ∀ c ∈ (phoneticHashS w).data.drop 1, '0' ≤ c ∧ c ≤ '9' := by
  obtain ⟨c0, rest, hw⟩ : ∃ c0 rest, w.data = c0 :: rest := by
    cases hd : w.data with
    | nil =>
        exfalso
        apply h
        cases w with
        | mk d => cases hd; rfl
    | cons c0 rest => exact ⟨c0, rest, rfl⟩
  have hlen : (phonLoop (rest.map jsLowerChar) (digitOf (jsLowerChar c0)) 3).length ≤ 3 :=
    phonLoop_length _ _ _
  refine ⟨?_, ?_, ?_⟩
  · show (phoneticHashS w).data.length = 4
    simp only [phoneticHashS, phoneticHashL, hw, padEnd4]
    simp only [List.length_append, List.length_replicate, List.length_cons]
    omega
  · simp [phoneticHashS, phoneticHashL, hw, padEnd4]
  · intro c hc
    simp only [phoneticHashS, phoneticHashL, hw, padEnd4, List.cons_append,
      List.drop_succ_cons, List.drop_zero] at hc
    rcases List.mem_append.mp hc with h1 | h1
    · have hmem := phonLoop_digits _ _ _ c h1
      fin_cases hmem <;> exact ⟨by decide, by decide⟩
    · have := List.eq_of_mem_replicate h1
      subst this
      exact ⟨by decide, by decide⟩

/-- C9: for every non-empty word the phonetic hash is exactly 4 characters,
the first being the lowercased first character of the word and the rest
digits; the empty word hashes to the empty string, not a 4-character
code. -/
theorem phoneticHash_shape :
    (∀ w : String, w ≠ "" →
      (phoneticHashS w).length = 4 ∧
        (phoneticHashS w).data.headD ' ' = jsLowerChar (w.data.headD ' ') ∧
        ∀ c ∈ (phoneticHashS w).data.drop 1, '0' ≤ c ∧ c ≤ '9') ∧
    phoneticHashS "" = "" :=
  ⟨phoneticHash_shape_aux, rfl⟩

/-- Witness for C9 at the word "react". -/
theorem phoneticHash_shape_witness :
    ("react" : String) ≠ "" ∧ (phoneticHashS "react").length = 4 :=
  ⟨by decide, (phoneticHash_shape.1 "react" (by decide)).1⟩

/-! ### Stemmer (`stemWord`) -/

/-- JS `endsWith`. -/
def endsWithL (l suf : List Char) : Bool :=
  decide (suf.length ≤ l.length) && decide (l.drop (l.length - suf.length) = suf)

/-- The fixed ordered suffix list of `stemWord`. -/
def suffixes : List (List Char) :=
  (["ing", "ed", "es", "s", "tion", "ment", "ness", "able", "ible", "ful",
    "less", "ly", "er", "or", "ist", "ism"] : List String).map String.data

/-- `stemWord` from the source: lowercase, then strip the first suffix in
`suffixes` order that matches and satisfies the length bound. -/
def stemWord (word : String) : String :=
  match suffixes.find? (fun s =>
      decide (s.length + 2 < (jsLower word.data).length) &&
        endsWithL (jsLower word.data) s) with
  | some s =>
      String.mk ((jsLower word.data).take ((jsLower word.data).length - s.length))
  | none => String.mk (jsLower word.data)

/-- The amended C5 behaviour, written as a direct recursion over the ordered
suffix list: the first suffix that matches (with the length bound) is
stripped. -/
def stemGo (w : List Char) : List (List Char) → List Char
  | [] => w
  | s :: rest =>
      if decide (s.length + 2 < w.length) && endsWithL w s then
        w.take (w.length - s.length)
      else stemGo w rest

/-- First-match stemming, as the amended claim words it. -/
def stemFirstSpec (word : String) : String :=
  String.mk (stemGo (jsLower word.data) suffixes)

/-- Longest-match stemming, as claim C5 words it: among all suffixes of the
fixed list that match and satisfy the length bound, the longest is
stripped. -/
def stemLongestSpec (word : String) : String :=
  let w := jsLower word.data
  let best := (suffixes.filter
      (fun s => decide (s.length + 2 < w.length) && endsWithL w s)).foldl
    (fun acc s => if acc.length < s.length then s else acc) []
  if best = [] then String.mk w else String.mk (w.take (w.length - best.length))

theorem stemGo_eq_find (w : List Char) : ∀ L : List (List Char),
    (match L.find? (fun s => decide (s.length + 2 < w.length) && endsWithL w s) with
      | some s => String.mk (w.take (w.length - s.length))
      | none => String.mk w) = String.mk (stemGo w L) := by
  intro L
  induction L with
  | nil => simp [stemGo, List.find?]
  | cons s rest ih =>
      simp only [stemGo, List.find?_cons]
      by_cases hs : (decide (s.length + 2 < w.length) && endsWithL w s) = true
      · simp [hs]
      · simp only [Bool.not_eq_true] at hs
        simp only [hs]
        simpa using ih

/-- C5 (amended): `stemWord` strips the first matching suffix of the fixed
ordered list subject to the length bound, else returns the lowercased
word. -/
theorem stemWord_eq_stemFirstSpec (word : String) :
    stemWord word = stemFirstSpec word :=
  stemGo_eq_find (jsLower word.data) suffixes

/-- C5 counterexample: on "happiness" the code strips the first matching
suffix ("s"), not the longest matching suffix ("ness") that the claim
requires. -/
theorem stemWord_longest_counterexample :
    stemWord "happiness" = "happines" ∧ stemLongestSpec "happiness" = "happi" ∧
      stemWord "happiness" ≠ stemLongestSpec "happiness" := by
  refine ⟨by decide, by decide, by decide⟩

/-! ### Levenshtein distance (`levenshteinDistance`)

The implementation keeps a single previous row and early-exits to Infinity
(modelled as `none`) when a whole row exceeds `maxDistance`. -/

/-- One DP cell: `Math.min(prevRow[i] + 1, currRow[i-1] + 1,
prevRow[i-1] + cost)`. -/
def levCell (pPrev pCur left : Nat) (x y : Char) : Nat :=
  min (pCur + 1) (min (left + 1) (pPrev + (if x = y then 0 else 1)))

/-- The inner `for` loop over `i = 1 .. aLen`: remaining characters of `a`,
the aligned remainder of the previous row, and the value to the left in the
current row.  Produces the current row without its leading entry. -/
def rowStep (y : Char) : List Char → List Nat → Nat → List Nat
  | [], _, _ => []
  | _ :: _, [], _ => []
  | x :: xs, pPrev :: pRest, left =>
      levCell pPrev (pRest.headD 0) left x y ::
        rowStep y xs pRest (levCell pPrev (pRest.headD 0) left x y)

/-- The outer `for` loop over the characters of `b`, carrying the previous
row and the 1-based row index; `none` models the Infinity early exit when a
row minimum exceeds `maxDistance`. -/
def levLoop (a : List Char) (k : Nat) : List Char → List Nat → Nat → Option (List Nat)
  | [], prev, _ => some prev
  | y :: ys, prev, j =>
      if k < (rowStep y a prev j).foldl min j then none
      else levLoop a k ys (j :: rowStep y a prev j) (j + 1)

/-- The DP part of `levenshteinDistance` (after the quick checks and the
shorter-string swap): runs the row loop and applies the final
`≤ maxDistance` cap. -/
def levCore (a b : List Char) (k : Nat) : Option Nat :=
  match levLoop a k b (List.range (a.length + 1)) 1 with
  | none => none
  | some row => if row.getLastD 0 ≤ k then some (row.getLastD 0) else none

/-- `Math.abs(a.length - b.length)` on naturals. -/
def natAbsDiff (m n : Nat) : Nat := max m n - min m n

/-- `levenshteinDistance` on character lists; `none` models `Infinity`. -/
def levenshteinDistanceL (a b : List Char) (k : Nat) : Option Nat :=
  if a = b then some 0
  else if a.length = 0 then some b.length
  else if b.length = 0 then some a.length
  else if k < natAbsDiff a.length b.length then none
  else if b.length < a.length then levCore b a k
  else levCore a b k

/-- `levenshteinDistance` on `String`s (`maxDistance` made explicit). -/
def levenshteinDistance (a b : String) (k : Nat) : Option Nat :=
  levenshteinDistanceL a.data b.data k

/-- The full Levenshtein DP matrix, used only in proofs: `levD a b i j` is
the edit distance between the length-`i` prefix of `a` and the length-`j`
prefix of `b`. -/
def levD (a b : List Char) : Nat → Nat → Nat
  | 0, j => j
  | i + 1, 0 => i + 1
  | i + 1, j + 1 =>
      min (levD a b (i + 1) j + 1)
        (min (levD a b i (j + 1) + 1)
          (levD a b i j + (if a.getD i ' ' = b.getD j ' ' then 0 else 1)))
termination_by i j => i + j

theorem levD_zero_left (a b : List Char) (j : Nat) : levD a b 0 j = j := by
  simp [levD]

theorem levD_zero_right (a b : List Char) (i : Nat) : levD a b i 0 = i := by
  cases i with
  | zero => simp [levD]
  | succ i => simp [levD]

theorem levD_succ_succ (a b : List Char) (i j : Nat) :
    levD a b (i + 1) (j + 1) =
      min (levD a b (i + 1) j + 1)
        (min (levD a b i (j + 1) + 1)
          (levD a b i j + (if a.getD i ' ' = b.getD j ' ' then 0 else 1))) := by
  simp [levD]

theorem levD_symm_aux (a b : List Char) :
    ∀ n i j, i + j ≤ n → levD a b i j = levD b a j i := by
  intro n
  induction n with
  | zero =>
      intro i j h
      have hi : i = 0 := by omega
      have hj : j = 0 := by omega
      subst hi; subst hj
      rw [levD_zero_left, levD_zero_left]
  | succ n ih =>
      intro i j h
      match i, j with
      | 0, j => rw [levD_zero_left, levD_zero_right]
      | i + 1, 0 => rw [levD_zero_left, levD_zero_right]
      | i + 1, j + 1 =>
          rw [levD_succ_succ, levD_succ_succ]
          rw [ih (i + 1) j (by omega), ih i (j + 1) (by omega), ih i j (by omega)]
          have hcost : (if a.getD i ' ' = b.getD j ' ' then 0 else 1) =
              (if b.getD j ' ' = a.getD i ' ' then 0 else 1) := by
            by_cases hc : a.getD i ' ' = b.getD j ' '
            · rw [if_pos hc, if_pos hc.symm]
            · rw [if_neg hc, if_neg (fun hh => hc hh.symm)]
          rw [hcost]
          omega

/-- The DP matrix is symmetric (transposition). -/
theorem levD_symm (a b : List Char) (i j : Nat) : levD a b i j = levD b a j i :=
  levD_symm_aux a b (i + j) i j le_rfl

/-- Length-difference lower bounds on DP cells. -/
theorem levD_lower (a b : List Char) :
    ∀ n i j, i + j ≤ n → j ≤ levD a b i j + i ∧ i ≤ levD a b i j + j := by
  intro n
  induction n with
  | zero =>
      intro i j h
      have hi : i = 0 := by omega
      have hj : j = 0 := by omega
      subst hi; subst hj
      rw [levD_zero_left]
      omega
  | succ n ih =>
      intro i j h
      match i, j with
      | 0, j => rw [levD_zero_left]; omega
      | i + 1, 0 => rw [levD_zero_right]; omega
      | i + 1, j + 1 =>
          rw [levD_succ_succ]
          have h1 := ih (i + 1) j (by omega)
          have h2 := ih i (j + 1) (by omega)
          have h3 := ih i j (by omega)
          have hcost : (if a.getD i ' ' = b.getD j ' ' then 0 else 1) ≤ 1 := by
            split <;> omega
          omega

theorem levD_le_succ_left (a b : List Char) :
    ∀ j i, levD a b i j ≤ levD a b (i + 1) j + 1 := by
  intro j
  induction j with
  | zero =>
      intro i
      rw [levD_zero_right, levD_zero_right]
      omega
  | succ j ih =>
      intro i
      match i with
      | 0 =>
          rw [levD_zero_left]
          exact (levD_lower a b (1 + (j + 1)) 1 (j + 1) le_rfl).1
      | i + 1 =>
          have hXle : levD a b (i + 1) (j + 1) ≤ levD a b (i + 1) j + 1 := by
            rw [levD_succ_succ]
            exact min_le_left _ _
          have hYexp := levD_succ_succ a b (i + 1) j
          have h1 : levD a b (i + 1) j ≤ levD a b (i + 1 + 1) j + 1 := ih (i + 1)
          rw [hYexp]
          omega

theorem levD_le_succ_right (a b : List Char) (i j : Nat) :
    levD a b i j ≤ levD a b i (j + 1) + 1 := by
  rw [levD_symm a b i j, levD_symm a b i (j + 1)]
  exact levD_le_succ_left b a i j

/-- Diagonal monotonicity of the DP matrix. -/
theorem levD_le_diag (a b : List Char) (i j : Nat) :
    levD a b i j ≤ levD a b (i + 1) (j + 1) := by
  rw [levD_succ_succ]
  have h1 := levD_le_succ_left a b (j + 1) i
  have h2 := levD_le_succ_right a b (i + 1) j
  have h3 := levD_le_succ_left a b j i
  have h4 := levD_le_succ_right a b i j
  omega

theorem levD_le_diag_add (a b : List Char) (i j : Nat) :
    ∀ t, levD a b i j ≤ levD a b (i + t) (j + t) := by
  intro t
  induction t with
  | zero => simp
  | succ t ih => exact le_trans ih (levD_le_diag a b (i + t) (j + t))

/-- If every cell of row `j` (with `1 ≤ j ≤ |b|`) exceeds `k`, the final
cell exceeds `k`: the early termination is sound. -/
theorem levD_rowmin_final (a b : List Char) (k j : Nat)
    (hj : j ≤ b.length) (hall : ∀ i, i ≤ a.length → k < levD a b i j) :
    k < levD a b a.length b.length := by
  by_cases hcase : b.length - j ≤ a.length
  · have h0 := hall (a.length - (b.length - j)) (by omega)
    have hd := levD_le_diag_add a b (a.length - (b.length - j)) j (b.length - j)
    have he1 : a.length - (b.length - j) + (b.length - j) = a.length := by omega
    have he2 : j + (b.length - j) = b.length := by omega
    rw [he1, he2] at hd
    omega
  · have h0 := hall 0 (by omega)
    rw [levD_zero_left] at h0
    have hlow := (levD_lower a b (a.length + b.length) a.length b.length le_rfl).1
    omega

theorem lt_foldl_min (l : List Nat) : ∀ c k : Nat,
    k < l.foldl min c ↔ k < c ∧ ∀ x ∈ l, k < x := by
  induction l with
  | nil => intro c k; simp
  | cons x l ih =>
      intro c k
      rw [List.foldl_cons, ih]
      constructor
      · rintro ⟨h1, h2⟩
        refine ⟨?_, ?_⟩
        · omega
        · intro v hv
          rcases List.mem_cons.mp hv with h | h
          · subst h; omega
          · exact h2 v h
      · rintro ⟨h1, h2⟩
        refine ⟨?_, fun v hv => h2 v (List.mem_cons_of_mem x hv)⟩
        have := h2 x (List.mem_cons_self x l)
        omega

theorem getLastD_map_range (f : Nat → Nat) (n : Nat) :
    ((List.range (n + 1)).map f).getLastD 0 = f n := by
  rw [List.range_succ, List.map_append]
  exact List.getLastD_concat _ _ _

theorem drop_cons_getD {α : Type} (l : List α) (t : Nat) (x : α)
    (xs : List α) (h : l.drop t = x :: xs) :
    (∀ d, l.getD t d = x) ∧ xs = l.drop (t + 1) ∧ t < l.length := by
  have h1 : (l.drop t).head? = some x := by rw [h]; rfl
  rw [List.head?_drop] at h1
  have ht : t < l.length := by
    by_contra hc
    push_neg at hc
    rw [List.drop_eq_nil_of_le hc] at h
    exact List.noConfusion h
  refine ⟨?_, ?_, ht⟩
  · intro d
    rw [List.getD_eq_getElem?_getD, h1]
    rfl
  · have h2 : (l.drop t).drop 1 = l.drop (t + 1) := List.drop_drop 1 t l
    rw [h] at h2
    simpa using h2

/-- `rowStep` computes row `j + 1` of the DP matrix from row `j`. -/
theorem rowStep_spec (a b : List Char) (j : Nat) :
    ∀ (xs : List Char) (t : Nat), xs = a.drop t →
      rowStep (b.getD j ' ') xs
          ((List.range' t (a.length + 1 - t)).map (fun i => levD a b i j))
          (levD a b t (j + 1)) =
        (List.range' (t + 1) (a.length - t)).map (fun i => levD a b i (j + 1)) := by
  intro xs
  induction xs with
  | nil =>
      intro t hxs
      have ht : a.length ≤ t := by
        by_contra hc
        push_neg at hc
        have hne : a.drop t ≠ [] := by
          intro hnil
          have := List.drop_eq_nil_iff.mp hnil
          omega
        exact hne hxs.symm
      have e2 : a.length - t = 0 := by omega
      rw [e2]
      simp [rowStep]
  | cons x xs' ih =>
      intro t hxs
      obtain ⟨hx, hxs', ht⟩ := drop_cons_getD a t x xs' hxs.symm
      have hcell : levCell (levD a b t j) (levD a b (t + 1) j) (levD a b t (j + 1)) x
          (b.getD j ' ') = levD a b (t + 1) (j + 1) := by
        rw [levD_succ_succ, levCell]
        rw [hx ' ']
      have ihx := ih (t + 1) hxs'
      have e3 : a.length + 1 - (t + 1) = (a.length - (t + 1)) + 1 := by omega
      rw [e3, List.range'_succ, List.map_cons] at ihx
      have e1 : a.length + 1 - t = (a.length - (t + 1)) + 1 + 1 := by omega
      have e2 : a.length - t = (a.length - (t + 1)) + 1 := by omega
      rw [e1, e2, List.range'_succ, List.range'_succ]
      simp only [List.map_cons]
      simp only [rowStep, List.headD_cons]
      rw [hcell, ihx]

/-- One iteration of the outer loop, expressed on DP rows. -/
theorem levLoop_step (a b : List Char) (k j : Nat) (hj : j < b.length) :
    levLoop a k (b.drop j) ((List.range (a.length + 1)).map (fun i => levD a b i j))
        (j + 1) =
      if k < ((List.range' 1 a.length).map (fun i => levD a b i (j + 1))).foldl min (j + 1)
      then none
      else levLoop a k (b.drop (j + 1))
        ((List.range (a.length + 1)).map (fun i => levD a b i (j + 1))) (j + 1 + 1) := by
  cases hd : b.drop j with
  | nil =>
      exfalso
      have := List.drop_eq_nil_iff.mp hd
      omega
  | cons y ys' =>
      obtain ⟨hy, hys', -⟩ := drop_cons_getD b j y ys' hd
      have hrs := rowStep_spec a b j a 0 rfl
      rw [hy ' '] at hrs
      rw [levD_zero_left] at hrs
      simp only [Nat.add_zero, Nat.sub_zero, Nat.zero_add, ← List.range_eq_range'] at hrs
      have hprev : (List.range (a.length + 1)).map (fun i => levD a b i (j + 1)) =
          (j + 1) :: (List.range' 1 a.length).map (fun i => levD a b i (j + 1)) := by
        rw [List.range_eq_range', List.range'_succ, List.map_cons, levD_zero_left]
      simp only [levLoop]
      rw [hrs, hprev, hys']

/-- If the final distance is within the bound, the loop never early-exits
and returns the last DP row. -/
theorem levLoop_complete (a b : List Char) (k : Nat)
    (h : levD a b a.length b.length ≤ k) :
    ∀ d j, b.length - j = d → j ≤ b.length →
      levLoop a k (b.drop j) ((List.range (a.length + 1)).map (fun i => levD a b i j))
          (j + 1) =
        some ((List.range (a.length + 1)).map (fun i => levD a b i b.length)) := by
  intro d
  induction d with
  | zero =>
      intro j hd hj
      have hjb : j = b.length := by omega
      subst hjb
      rw [List.drop_length]
      simp [levLoop]
  | succ d ih =>
      intro j hd hj
      have hjlt : j < b.length := by omega
      rw [levLoop_step a b k j hjlt]
      rw [if_neg]
      · exact ih (j + 1) (by omega) (by omega)
      · intro hcon
        rw [lt_foldl_min] at hcon
        obtain ⟨h1, h2⟩ := hcon
        have hall : ∀ i, i ≤ a.length → k < levD a b i (j + 1) := by
          intro i hi
          match i with
          | 0 => rw [levD_zero_left]; omega
          | i + 1 =>
              apply h2
              exact List.mem_map.mpr ⟨i + 1, List.mem_range'_1.mpr ⟨by omega, by omega⟩, rfl⟩
        have := levD_rowmin_final a b k (j + 1) (by omega) hall
        omega

/-- If the final distance exceeds the bound, the loop either early-exits or
returns the last DP row. -/
theorem levLoop_exceeds (a b : List Char) (k : Nat) :
    ∀ d j, b.length - j = d → j ≤ b.length →
      levLoop a k (b.drop j) ((List.range (a.length + 1)).map (fun i => levD a b i j))
          (j + 1) = none ∨
      levLoop a k (b.drop j) ((List.range (a.length + 1)).map (fun i => levD a b i j))
          (j + 1) =
        some ((List.range (a.length + 1)).map (fun i => levD a b i b.length)) := by
  intro d
  induction d with
  | zero =>
      intro j hd hj
      right
      have hjb : j = b.length := by omega
      subst hjb
      rw [List.drop_length]
      simp [levLoop]
  | succ d ih =>
      intro j hd hj
      have hjlt : j < b.length := by omega
      rw [levLoop_step a b k j hjlt]
      by_cases hcond :
          k < ((List.range' 1 a.length).map (fun i => levD a b i (j + 1))).foldl min (j + 1)
      · left
        rw [if_pos hcond]
      · rw [if_neg hcond]
        exact ih (j + 1) (by omega) (by omega)

/-- The DP part of the implementation computes the thresholded true edit
distance: the early termination is outcome-preserving. -/
theorem levCore_eq (a b : List Char) (k : Nat) :
    levCore a b k =
      if levD a b a.length b.length ≤ k then some (levD a b a.length b.length)
      else none := by
  have hrow0 : (List.range (a.length + 1)).map (fun i => levD a b i 0) =
      List.range (a.length + 1) := by
    have hcg : ∀ i ∈ List.range (a.length + 1), levD a b i 0 = i :=
      fun i _ => levD_zero_right a b i
    rw [List.map_congr_left hcg, List.map_id']
  have hgetLast : ((List.range (a.length + 1)).map
      (fun i => levD a b i b.length)).getLastD 0 = levD a b a.length b.length :=
    getLastD_map_range _ _
  unfold levCore
  by_cases h : levD a b a.length b.length ≤ k
  · have hc := levLoop_complete a b k h b.length 0 rfl (by omega)
    rw [List.drop_zero, hrow0, Nat.zero_add] at hc
    rw [hc]
    dsimp only
    rw [hgetLast, if_pos h]
  · push_neg at h
    have hnot : ¬ levD a b a.length b.length ≤ k := by omega
    rcases levLoop_exceeds a b k b.length 0 rfl (by omega) with hc | hc
    · rw [List.drop_zero, hrow0, Nat.zero_add] at hc
      rw [hc]
      dsimp only
      rw [if_neg hnot]
    · rw [List.drop_zero, hrow0, Nat.zero_add] at hc
      rw [hc]
      dsimp only
      rw [hgetLast, if_neg hnot]

/-- C8: `levenshteinDistance(a, b, k) = levenshteinDistance(b, a, k)` for
all strings and every bound, Infinity cases included. -/
theorem levenshteinDistance_symm (a b : String) (k : Nat) :
    levenshteinDistance a b k = levenshteinDistance b a k := by
  unfold levenshteinDistance levenshteinDistanceL
  by_cases hab : a.data = b.data
  · rw [if_pos hab, if_pos hab.symm]
  · have hba : ¬ b.data = a.data := fun h => hab h.symm
    rw [if_neg hab, if_neg hba]
    by_cases ha0 : a.data.length = 0
    · have hb0 : ¬ b.data.length = 0 := by
        intro hb0
        have ha' : a.data = [] := List.length_eq_zero.mp ha0
        have hb' : b.data = [] := List.length_eq_zero.mp hb0
        exact hab (ha'.trans hb'.symm)
      rw [if_pos ha0, if_neg hb0, if_pos ha0]
    · by_cases hb0 : b.data.length = 0
      · rw [if_neg ha0, if_pos hb0, if_pos hb0]
      · rw [if_neg ha0, if_neg hb0]
        have habs : natAbsDiff a.data.length b.data.length =
            natAbsDiff b.data.length a.data.length := by
          unfold natAbsDiff
          omega
        rw [habs]
        by_cases hk : k < natAbsDiff b.data.length a.data.length
        · rw [if_pos hk, if_neg hb0, if_neg ha0, if_pos hk]
        · rw [if_neg hk]
          rcases Nat.lt_trichotomy b.data.length a.data.length with hlt | heq | hgt
          · have hnlt : ¬ a.data.length < b.data.length := by omega
            rw [if_pos hlt, if_neg hnlt, if_neg hb0, if_neg ha0, if_neg hk]
          · have hn1 : ¬ b.data.length < a.data.length := by omega
            have hn2 : ¬ a.data.length < b.data.length := by omega
            rw [if_neg hn1, if_neg hn2]
            rw [levCore_eq, levCore_eq, levD_symm a.data b.data]
            rw [heq]
            have hk0 : ¬ k < natAbsDiff a.data.length a.data.length := by
              unfold natAbsDiff
              omega
            rw [if_neg ha0, if_neg ha0, if_neg hk0]
          · have hnlt : ¬ b.data.length < a.data.length := by omega
            rw [if_neg hnlt, if_pos hgt, if_neg hb0, if_neg ha0, if_neg hk]

/-! ### Similarity and fuzzy matching -/

/-- `stringSimilarity` (JS float arithmetic modelled exactly in `ℚ`). -/
def stringSimilarity (a b : List Char) : ℚ :=
  if a = b then 1
  else if a.length = 0 ∨ b.length = 0 then 0
  else
    match levenshteinDistanceL (jsLower a) (jsLower b) (max a.length b.length) with
    | none => 0
    | some d => 1 - (d : ℚ) / ((max a.length b.length : Nat) : ℚ)

/-- `isFuzzyMatch` with its threshold made explicit. -/
def isFuzzyMatch (query target : List Char) (threshold : ℚ) : Bool :=
  decide (threshold ≤ stringSimilarity query target)

/-! ### Text normalizer -/

/-- The per-character effect of `replace(/[^\w\s]/g, ' ')`. -/
def replaceNonWord (c : Char) : Char :=
  if isWordChar c || isSpaceChar c then c else ' '

/-- `extractWords`: normalize, split on whitespace, keep tokens of
length > 1. -/
def extractWordsL (text : List Char) : List (List Char) :=
  (splitOnPred isSpaceChar ((jsLower text).map replaceNonWord)).filter
    (fun w => decide (1 < w.length))

/-- `normalizeText`: lowercase, non-word characters to spaces, collapse
whitespace runs, trim — i.e. the whitespace-free tokens joined by single
spaces. -/
def normalizeTextL (text : List Char) : List Char :=
  List.intercalate [' '] (splitOnPred isSpaceChar ((jsLower text).map replaceNonWord))

/-- `normalizeText` on `String`s. -/
def normalizeText (s : String) : String := String.mk (normalizeTextL s.data)

/-- `generateAcronym`: first character of each extracted word, lowercased. -/
def generateAcronym (text : List Char) : List Char :=
  jsLower ((extractWordsL text).map (fun w => w.headD ' '))

/-- `matchesAcronym`. -/
def matchesAcronym (query text : List Char) : Bool :=
  decide (2 ≤ (generateAcronym text).length) &&
    (decide (generateAcronym text = (jsLower query).filter isWordChar) ||
      ((jsLower query).filter isWordChar).isPrefixOf (generateAcronym text))

/-! ### Spelling corrector (`findBestMatch`, `getSuggestion`) -/

/-- The body of the `for (const vocabWord of vocabulary)` loop: given the
running `(bestMatch, bestSimilarity)` state, process one vocabulary word. -/
def fbmStep (word : List Char) (wordPhonetic : List Char)
    (st : Option String × ℚ) (vocabWord : String) : Option String × ℚ :=
  if 2 < natAbsDiff word.length vocabWord.data.length then st
  else
    if st.2 < (if phoneticHashL vocabWord.data = wordPhonetic
        then stringSimilarity word vocabWord.data + 1 / 10
        else stringSimilarity word vocabWord.data) then
      (some vocabWord,
        if phoneticHashL vocabWord.data = wordPhonetic
        then stringSimilarity word vocabWord.data + 1 / 10
        else stringSimilarity word vocabWord.data)
    else st

/-- `findBestMatch` over a vocabulary in iteration (insertion) order; the
running threshold starts at 0.6 and only strictly better candidates
replace the current best. -/
def findBestMatch (word : String) (vocabulary : List String) : Option String :=
  if vocabulary.contains word then none
  else (vocabulary.foldl (fbmStep word.data (phoneticHashL word.data)) (none, 3 / 5)).1

/-- `getSuggestion`: corrects each extracted query word, returning the
joined phrase only if at least one word changed. -/
def getSuggestion (query : String) (vocabulary : List String) : Option String :=
  if (extractWordsL query.data).isEmpty then none
  else
    if ((extractWordsL query.data).map (fun w =>
        match findBestMatch (String.mk w) vocabulary with
        | some c => (c, true)
        | none => (String.mk w, false))).any (fun p => p.2) then
      some (String.intercalate " " (((extractWordsL query.data).map (fun w =>
        match findBestMatch (String.mk w) vocabulary with
        | some c => (c, true)
        | none => (String.mk w, false))).map (fun p => p.1)))
    else none

/-- C4 counterexample: over the vocabulary ["react", "recap"] (which
contains "react" and not "recat"), `findBestMatch "recat"` returns
"recap" — a higher-similarity candidate beats "react", so the claim's
conclusion fails for this vocabulary. -/
theorem sim_recat_react : stringSimilarity "recat".data "react".data = 3 / 5 := by
  rw [stringSimilarity, if_neg (by decide), if_neg (by decide)]
  have hld : levenshteinDistanceL (jsLower "recat".data) (jsLower "react".data)
      (max "recat".data.length "react".data.length) = some 2 := by decide
  rw [hld]
  have hmax : max "recat".data.length "react".data.length = 5 := by decide
  rw [hmax]
  norm_num

theorem sim_recat_recap : stringSimilarity "recat".data "recap".data = 4 / 5 := by
  rw [stringSimilarity, if_neg (by decide), if_neg (by decide)]
  have hld : levenshteinDistanceL (jsLower "recat".data) (jsLower "recap".data)
      (max "recat".data.length "recap".data.length) = some 1 := by decide
  rw [hld]
  have hmax : max "recat".data.length "recap".data.length = 5 := by decide
  rw [hmax]
  norm_num

theorem fbm_recat_react_step :
    fbmStep "recat".data (phoneticHashL "recat".data) (none, 3 / 5) "react" =
      (some "react", 3 / 5 + 1 / 10) := by
  have hph : phoneticHashL "react".data = phoneticHashL "recat".data := by decide
  rw [fbmStep, if_neg (by decide), if_pos hph, sim_recat_react,
    if_pos (by norm_num)]

theorem fbm_recat_recap_step :
    fbmStep "recat".data (phoneticHashL "recat".data) (some "react", 3 / 5 + 1 / 10)
      "recap" = (some "recap", 4 / 5) := by
  have hph : ¬ phoneticHashL "recap".data = phoneticHashL "recat".data := by decide
  rw [fbmStep, if_neg (by decide), if_neg hph, sim_recat_recap,
    if_pos (by norm_num)]

/-- C4 counterexample: over the vocabulary ["react", "recap"] (which
contains "react" and not "recat"), `findBestMatch "recat"` returns
"recap" — a higher-similarity candidate beats "react", so the claim's
conclusion fails for this vocabulary. -/
theorem findBestMatch_recat_counterexample :
    ("react" : String) ∈ (["react", "recap"] : List String) ∧
      ("recat" : String) ∉ (["react", "recap"] : List String) ∧
      findBestMatch "recat" ["react", "recap"] = some "recap" ∧
      findBestMatch "recat" ["react", "recap"] ≠ some "react" := by
  have hfb : findBestMatch "recat" ["react", "recap"] = some "recap" := by
    rw [findBestMatch, if_neg (by decide)]
    rw [List.foldl_cons, fbm_recat_react_step, List.foldl_cons,
      fbm_recat_recap_step, List.foldl_nil]
  refine ⟨by decide, by decide, hfb, by rw [hfb]; decide⟩

/-- C4 (amended): on the singleton vocabulary ["react"], the typo "recat"
is corrected to "react" — edit distance 2 over length 5 gives similarity
0.6, the phonetic hashes agree so the compared score is 0.7 > 0.6. -/
theorem findBestMatch_recat_singleton :
    findBestMatch "recat" ["react"] = some "react" ∧
      stringSimilarity "recat".data "react".data = 3 / 5 ∧
      phoneticHashL "recat".data = phoneticHashL "react".data := by
  have hfb : findBestMatch "recat" ["react"] = some "react" := by
    rw [findBestMatch, if_neg (by decide)]
    rw [List.foldl_cons, fbm_recat_react_step, List.foldl_nil]
  exact ⟨hfb, sim_recat_react, by decide⟩

/-! ### Word-boundary matching

`isWordMatch`/`isWordStartMatch` test the regexes `\b<literal>\b` /
`\b<literal>` with the `i` flag (the term is regex-escaped in the source,
so it is matched literally).  `matchCIAt` is a case-insensitive literal
occurrence at a position, `boundaryAt` is the `\b` assertion: the
word-character status differs between the previous and current position
(out of range counts as non-word). -/

/-- Is the character at index `i` a word character (`false` out of range)? -/
def wordAtIdx (l : List Char) (i : Nat) : Bool :=
  decide (i < l.length) && isWordChar (l.getD i ' ')

/-- The regex `\b` assertion at position `p` (positions run `0 .. l.length`). -/
def boundaryAt (l : List Char) (p : Nat) : Bool :=
  (if p = 0 then false else wordAtIdx l (p - 1)) != wordAtIdx l p

/-- Case-insensitive occurrence of `t` in `l` at position `p`. -/
def matchCIAt (t l : List Char) (p : Nat) : Bool :=
  decide (p + t.length ≤ l.length) &&
    decide (((l.drop p).take t.length).map jsLowerChar = t.map jsLowerChar)

/-- `isWordMatch term text`: the regex `\b<term>\b` (flag `i`) matches. -/
def isWordMatch (term text : List Char) : Bool :=
  (List.range (text.length + 1)).any (fun p =>
    matchCIAt term text p && boundaryAt text p && boundaryAt text (p + term.length))

/-- `isWordStartMatch term text`: the regex `\b<term>` (flag `i`) matches. -/
def isWordStartMatch (term text : List Char) : Bool :=
  (List.range (text.length + 1)).any (fun p => matchCIAt term text p && boundaryAt text p)

/-- JS `String.prototype.includes` (case-sensitive substring). -/
def includesL (hay needle : List Char) : Bool :=
  (List.range (hay.length + 1)).any (fun p =>
    decide (p + needle.length ≤ hay.length) &&
      decide ((hay.drop p).take needle.length = needle))

/-! ### URL splitting -/

/-- One pass of `replace(/https?:\/\/(www\.)?/g, '')`, written with explicit
fuel; each step consumes at least one character, so `fuel = length` never
runs out. -/
def stripHttpFuel : Nat → List Char → List Char
  | 0, l => l
  | _ + 1, [] => []
  | fuel + 1, c :: cs =>
      if "https://".data.isPrefixOf (c :: cs) then
        stripHttpFuel fuel
          (if "www.".data.isPrefixOf ((c :: cs).drop 8) then (c :: cs).drop 12
           else (c :: cs).drop 8)
      else if "http://".data.isPrefixOf (c :: cs) then
        stripHttpFuel fuel
          (if "www.".data.isPrefixOf ((c :: cs).drop 7) then (c :: cs).drop 11
           else (c :: cs).drop 7)
      else c :: stripHttpFuel fuel cs

/-- `replace(/https?:\/\/(www\.)?/g, '')`. -/
def stripHttp (l : List Char) : List Char := stripHttpFuel l.length l

/-- The URL separator class `[\/\.\-_?&#=]`. -/
def urlSepChar (c : Char) : Bool :=
  c == '/' || c == '.' || c == '-' || c == '_' || c == '?' || c == '&' ||
    c == '#' || c == '='

/-- The `urlParts` computation of `calculateScore`: lowercase, strip
schemes, split on separators, keep parts of length > 1. -/
def urlPartsOf (url : List Char) : List (List Char) :=
  (splitOnPred urlSepChar (stripHttp (jsLower url))).filter
    (fun p => decide (1 < p.length))

/-! ### Records and scoring -/

/-- The record being searched.  Fields not read by the search or the
recommender (`favicon`, `user_id`, `created_at`, reminder fields) are
omitted; the optional TS fields `description` and `is_pinned` are modelled
with `""` and `false` as the missing values, matching the `|| ''` /
truthiness treatment at every use site. -/
structure Website where
  id : String
  url : String
  title : String
  category : String
  description : String
  is_pinned : Bool
deriving DecidableEq

/-- A record paired with its relevance score.  The `matchedTerms` /
`matchedFields` diagnostics of the source are omitted: no control flow or
score depends on them. -/
structure ScoredWebsite where
  website : Website
  score : Nat
deriving DecidableEq

/-- `queryLower` of `calculateScore`: lowercased, trimmed query. -/
def queryLowerOf (query : String) : List Char := jsTrimL (jsLower query.data)

/-- `queryTerms`: whitespace-split terms of length ≥ 2. -/
def queryTermsOf (query : String) : List (List Char) :=
  (splitOnPred isSpaceChar (queryLowerOf query)).filter (fun t => decide (2 ≤ t.length))

/-- `titleWords`: whitespace-split lowercased title words of length > 1. -/
def titleWordsOf (title : String) : List (List Char) :=
  (splitOnPred isSpaceChar (jsLower title.data)).filter (fun w => decide (1 < w.length))

/-- Full-query block: exact word in title (1000) else word-start (400). -/
def titleFullScore (queryLower titleLower : List Char) : Nat :=
  if isWordMatch queryLower titleLower then 1000
  else if isWordStartMatch queryLower titleLower then 400
  else 0

/-- Full-query block: exact word in description (200). -/
def descFullScore (queryLower descriptionLower : List Char) : Nat :=
  if isWordMatch queryLower descriptionLower then 200 else 0

/-- Full-query block: category equality / word match (400) else substring
containment (200). -/
def categoryScore (queryLower categoryLower : List Char) : Nat :=
  if categoryLower = queryLower ∨ isWordMatch queryLower categoryLower then 400
  else if includesL categoryLower queryLower then 200
  else 0

/-- Full-query block: URL part equality (250) else prefix for queries of
length ≥ 3 (100). -/
def urlFullScore (queryLower : List Char) (urlParts : List (List Char)) : Nat :=
  if urlParts.any (fun p => decide (p = queryLower)) then 250
  else if urlParts.any (fun p => queryLower.isPrefixOf p && decide (3 ≤ queryLower.length))
    then 100
  else 0

/-- Acronym block (350), only for query length 2–4. -/
def acronymScore (queryLower title : List Char) : Nat :=
  if 2 ≤ queryLower.length ∧ queryLower.length ≤ 4 ∧ matchesAcronym queryLower title
  then 350 else 0

/-- Per-term title block: exact word (500), else word prefix (300), else
fuzzy at threshold 0.75 for words of length ≥ 4 (150, at most once thanks
to the `break`). -/
def termTitleScore (term : List Char) (titleWords : List (List Char)) : Nat :=
  if titleWords.contains term then 500
  else if titleWords.any (fun w => term.isPrefixOf w) then 300
  else if decide (4 ≤ term.length) &&
      titleWords.any (fun w => decide (4 ≤ w.length) && isFuzzyMatch term w (3 / 4))
    then 150
  else 0

/-- Per-term description block (150). -/
def termDescScore (term descriptionLower : List Char) : Nat :=
  if isWordMatch term descriptionLower then 150 else 0

/-- Per-term URL block (100). -/
def termUrlScore (term : List Char) (urlParts : List (List Char)) : Nat :=
  if urlParts.any (fun p => decide (p = term) || term.isPrefixOf p) then 100 else 0

/-- All per-term contributions of one term; the source's `termMatched` flag
is exactly `0 < termScore` since every branch that sets it also adds a
positive amount. -/
def termScore (term : List Char) (titleWords : List (List Char))
    (descriptionLower : List Char) (urlParts : List (List Char)) : Nat :=
  termTitleScore term titleWords + termDescScore term descriptionLower +
    termUrlScore term urlParts

/-- The accumulated score before the pinned boost, in source order. -/
def baseScore (query : String) (website : Website) : Nat :=
  titleFullScore (queryLowerOf query) (jsLower website.title.data) +
  descFullScore (queryLowerOf query) (jsLower website.description.data) +
  categoryScore (queryLowerOf query) (jsLower website.category.data) +
  urlFullScore (queryLowerOf query) (urlPartsOf website.url.data) +
  acronymScore (queryLowerOf query) website.title.data +
  ((queryTermsOf query).map (fun t =>
      termScore t (titleWordsOf website.title) (jsLower website.description.data)
        (urlPartsOf website.url.data))).sum +
  (if 1 < (queryTermsOf query).length ∧
      (queryTermsOf query).countP (fun t =>
        decide (0 < termScore t (titleWordsOf website.title)
          (jsLower website.description.data) (urlPartsOf website.url.data))) =
        (queryTermsOf query).length
    then 200 else 0)

/-- `calculateScore`: the base score plus the pinned boost (only when the
record is pinned and already matched). -/
def calculateScore (query : String) (website : Website) : ScoredWebsite :=
  ⟨website,
    if website.is_pinned ∧ 0 < baseScore query website
    then baseScore query website + 50
    else baseScore query website⟩

/-! ### Stable descending sort

JS `Array.prototype.sort` is stable (ES2019); with the comparator
`(a, b) => b.score - a.score` it produces the unique stable
score-descending reordering, which `List.insertionSort` with the relation
below computes: an element is inserted before the first element of
strictly smaller key, hence after all earlier-input elements of equal
key. -/

/-- Sort relation of the comparator `(a, b) => key(b) - key(a)`. -/
def keyDesc {α : Type} {β : Type} [LinearOrder β] (key : α → β) : α → α → Prop :=
  fun x y => key y ≤ key x

instance keyDescDecidable {α : Type} {β : Type} [LinearOrder β] (key : α → β) :
    DecidableRel (keyDesc key) :=
  fun x y => inferInstanceAs (Decidable (key y ≤ key x))

instance keyDescTotal {α : Type} {β : Type} [LinearOrder β] (key : α → β) :
    IsTotal α (keyDesc key) :=
  ⟨fun x y => le_total (key y) (key x)⟩

instance keyDescTrans {α : Type} {β : Type} [LinearOrder β] (key : α → β) :
    IsTrans α (keyDesc key) :=
  ⟨fun _ _ _ h1 h2 => le_trans h2 h1⟩

theorem sorted_insertionSort_keyDesc {α : Type} {β : Type} [LinearOrder β]
    (key : α → β) (l : List α) :
    (l.insertionSort (keyDesc key)).Sorted (keyDesc key) :=
  List.sorted_insertionSort _ l

theorem filter_orderedInsert_keyDesc {α : Type} {β : Type} [LinearOrder β]
    (key : α → β) (s : β) (x : α) (l : List α) :
    (List.orderedInsert (keyDesc key) x l).filter (fun y => decide (key y = s)) =
      (x :: l).filter (fun y => decide (key y = s)) := by
  induction l with
  | nil => rfl
  | cons b l ih =>
      by_cases h : keyDesc key x b
      · rw [List.orderedInsert, if_pos h]
      · rw [List.orderedInsert, if_neg h]
        have hlt : key x < key b := not_le.mp h
        by_cases hxs : key x = s
        · by_cases hbs : key b = s
          · exact absurd (hxs.trans hbs.symm) (ne_of_lt hlt)
          · simp [List.filter_cons, hxs, hbs, ih]
        · by_cases hbs : key b = s <;> simp [List.filter_cons, hxs, hbs, ih]

/-- Stability of the modelled JS sort: for each score value, the sorted
list restricted to that score is the input restricted to that score, in
order. -/
theorem filter_insertionSort_keyDesc {α : Type} {β : Type} [LinearOrder β]
    (key : α → β) (s : β) (l : List α) :
    (l.insertionSort (keyDesc key)).filter (fun y => decide (key y = s)) =
      l.filter (fun y => decide (key y = s)) := by
  induction l with
  | nil => rfl
  | cons x l ih =>
      have h1 := filter_orderedInsert_keyDesc key s x (l.insertionSort (keyDesc key))
      simp only [List.insertionSort]
      rw [h1, List.filter_cons, ih, List.filter_cons]

/-! ### Search orchestrator (`smartSearch`) -/

/-- The result record of `smartSearch`. -/
structure SmartSearchResult where
  websites : List Website
  suggestion : Option String
  query : String
  totalMatches : Nat
deriving DecidableEq

/-- Scoring and threshold filtering of `smartSearch` (trimmed query). -/
def searchScored (query : String) (websites : List Website) : List ScoredWebsite :=
  (websites.map (calculateScore query)).filter (fun sw => decide (150 ≤ sw.score))

/-- The score-descending stable sort of `smartSearch`. -/
def searchSorted (query : String) (websites : List Website) : List ScoredWebsite :=
  (searchScored query websites).insertionSort (keyDesc ScoredWebsite.score)

/-- `smartSearch`; the optional `vocabulary` parameter is `Option`-typed. -/
def smartSearch (query : String) (websites : List Website)
    (vocabulary : Option (List String)) : SmartSearchResult :=
  if jsTrimS query = "" then
    ⟨websites, none, "", websites.length⟩
  else
    ⟨(searchSorted (jsTrimS query) websites).map (fun sw => sw.website),
      match vocabulary with
      | some vocab =>
          if (searchSorted (jsTrimS query) websites).length < 3 then
            match getSuggestion (jsTrimS query) vocab with
            | some s =>
                if normalizeText s = normalizeText (jsTrimS query) then none else some s
            | none => none
          else none
      | none => none,
      jsTrimS query,
      (searchSorted (jsTrimS query) websites).length⟩

theorem calculateScore_website (query : String) (w : Website) :
    (calculateScore query w).website = w := rfl

theorem searchScored_mem (query : String) (websites : List Website) :
    ∀ sw ∈ searchScored query websites,
      sw = calculateScore query sw.website ∧ 150 ≤ sw.score := by
  intro sw hsw
  rw [searchScored, List.mem_filter] at hsw
  obtain ⟨hmem, hsc⟩ := hsw
  obtain ⟨w, _, hswe⟩ := List.mem_map.mp hmem
  constructor
  · subst hswe
    rfl
  · simpa using hsc

/-- C3: a query that trims to the empty string short-circuits: the input
records are returned unchanged (same order, unfiltered, unscored) with a
null suggestion. -/
theorem smartSearch_empty_query (query : String) (websites : List Website)
    (vocabulary : Option (List String)) (h : jsTrimS query = "") :
    smartSearch query websites vocabulary =
      ⟨websites, none, "", websites.length⟩ := by
  rw [smartSearch.eq_def, if_pos h]

/-- Witness for C3 at a whitespace-only query. -/
theorem smartSearch_empty_query_witness :
    jsTrimS "  " = "" ∧
      smartSearch "  " [⟨"1", "u", "t", "c", "d", false⟩] none =
        ⟨[⟨"1", "u", "t", "c", "d", false⟩], none, "", 1⟩ :=
  ⟨by decide, smartSearch_empty_query "  " [⟨"1", "u", "t", "c", "d", false⟩] none (by decide)⟩

/-- C1: for a query with non-empty trimmed form, every returned record
scores at least 150 under `calculateScore`, the returned sequence is
non-increasing in that score, and records of equal score keep their
relative input order (the sort is stable). -/
theorem smartSearch_threshold_sorted_stable (query : String)
    (websites : List Website) (vocabulary : Option (List String))
    (h : jsTrimS query ≠ "") :
    (∀ w ∈ (smartSearch query websites vocabulary).websites,
        150 ≤ (calculateScore (jsTrimS query) w).score) ∧
      ((smartSearch query websites vocabulary).websites.map
          (fun w => (calculateScore (jsTrimS query) w).score)).Sorted (· ≥ ·) ∧
      (∀ s : Nat,
        (searchSorted (jsTrimS query) websites).filter
            (fun sw => decide (sw.score = s)) =
          (searchScored (jsTrimS query) websites).filter
            (fun sw => decide (sw.score = s))) := by
  have hw : (smartSearch query websites vocabulary).websites =
      (searchSorted (jsTrimS query) websites).map (fun sw => sw.website) := by
    rw [smartSearch.eq_def, if_neg h]
  have hmem : ∀ sw ∈ searchSorted (jsTrimS query) websites,
      sw = calculateScore (jsTrimS query) sw.website ∧ 150 ≤ sw.score := by
    intro sw hsw
    exact searchScored_mem _ _ sw ((List.mem_insertionSort _).mp hsw)
  refine ⟨?_, ?_, ?_⟩
  · intro w hw'
    rw [hw] at hw'
    obtain ⟨sw, hsw, hswe⟩ := List.mem_map.mp hw'
    obtain ⟨heq, hsc⟩ := hmem sw hsw
    rw [← hswe, ← heq]
    exact hsc
  · rw [hw, List.map_map]
    have hsorted : (searchSorted (jsTrimS query) websites).Pairwise
        (keyDesc ScoredWebsite.score) :=
      sorted_insertionSort_keyDesc ScoredWebsite.score _
    have h2 : (searchSorted (jsTrimS query) websites).Pairwise
        (fun a b => (calculateScore (jsTrimS query) b.website).score ≤
          (calculateScore (jsTrimS query) a.website).score) := by
      refine hsorted.imp_of_mem ?_
      intro a b ha hb hr
      rw [← (hmem a ha).1, ← (hmem b hb).1]
      exact hr
    exact List.pairwise_map.mpr h2
  · intro s
    exact filter_insertionSort_keyDesc ScoredWebsite.score s
      (searchScored (jsTrimS query) websites)

/-- Witness for C1: a two-record collection under the query "hi". -/
theorem smartSearch_threshold_sorted_stable_witness :
    jsTrimS "hi" ≠ "" ∧
      (⟨"1", "", "hi there", "", "", false⟩ : Website) ∈
        (smartSearch "hi" [⟨"1", "", "hi there", "", "", false⟩,
          ⟨"2", "", "zz", "", "", false⟩] none).websites ∧
      150 ≤ (calculateScore (jsTrimS "hi") ⟨"1", "", "hi there", "", "", false⟩).score :=
  ⟨by decide, by decide,
    (smartSearch_threshold_sorted_stable "hi"
        [⟨"1", "", "hi there", "", "", false⟩, ⟨"2", "", "zz", "", "", false⟩]
        none (by decide)).1
      ⟨"1", "", "hi there", "", "", false⟩ (by decide)⟩

theorem space_not_word (c : Char) (h : isSpaceChar c = true) : isWordChar c = false := by
  simp only [isSpaceChar, Bool.or_eq_true, beq_iff_eq] at h
  rcases h with ((((h | h) | h) | h) | h) | h <;> subst h <;> decide

theorem headD_mem {α : Type} (l : List α) (d : α) (h : l ≠ []) : l.headD d ∈ l := by
  cases l with
  | nil => exact absurd rfl h
  | cons c t => simp [List.headD_cons]

theorem getLastD_mem {α : Type} : ∀ (l : List α) (d : α), l ≠ [] → l.getLastD d ∈ l := by
  intro l
  induction l with
  | nil => intro d h; exact absurd rfl h
  | cons x t ih =>
      intro d _
      cases t with
      | nil => simp [List.getLastD]
      | cons y s =>
          have h1 := ih x (by simp)
          exact List.mem_cons_of_mem x h1

theorem getD_length_sub_one {α : Type} : ∀ (l : List α) (d : α), l ≠ [] →
    l.getD (l.length - 1) d = l.getLastD d := by
  intro l
  induction l with
  | nil => intro d h; exact absurd rfl h
  | cons x t ih =>
      intro d _
      cases t with
      | nil => rfl
      | cons y s =>
          have h1 := ih d (by simp)
          have e1 : (x :: y :: s).length - 1 = (y :: s).length - 1 + 1 := by
            simp
          rw [e1, List.getD_cons_succ]
          exact h1

theorem isWordMatch_append (term pre post : List Char)
    (hne : term ≠ [])
    (hpre : pre = [] ∨ ∃ pre0 d, pre = pre0 ++ [d] ∧ isWordChar d = false)
    (hpost : post = [] ∨ ∃ d post0, post = d :: post0 ∧ isWordChar d = false)
    (hfirst : isWordChar (term.headD ' ') = true)
    (hlast : isWordChar (term.getLastD ' ') = true) :
    isWordMatch term (pre ++ term ++ post) = true := by
  have htermlen : 1 ≤ term.length := by
    cases term with
    | nil => exact absurd rfl hne
    | cons _ _ => simp
  have hcur : wordAtIdx (pre ++ term ++ post) pre.length = true := by
    rw [wordAtIdx, Bool.and_eq_true]
    refine ⟨by simp [List.length_append]; omega, ?_⟩
    have hget : (pre ++ term ++ post).getD pre.length ' ' = term.headD ' ' := by
      rw [List.append_assoc, List.getD_append_right pre (term ++ post) ' ' _ le_rfl]
      cases term with
      | nil => exact absurd rfl hne
      | cons c t => simp
    rw [hget]
    exact hfirst
  have hprevLast : wordAtIdx (pre ++ term ++ post) (pre.length + term.length - 1) = true := by
    rw [wordAtIdx, Bool.and_eq_true]
    refine ⟨by simp [List.length_append]; omega, ?_⟩
    have hidx : pre.length + term.length - 1 < (pre ++ term).length := by
      simp [List.length_append]
      omega
    have hget : (pre ++ term ++ post).getD (pre.length + term.length - 1) ' ' =
        term.getLastD ' ' := by
      rw [List.getD_append (pre ++ term) post ' ' _ hidx]
      rw [List.getD_append_right pre term ' ' _ (by omega)]
      have e : pre.length + term.length - 1 - pre.length = term.length - 1 := by omega
      rw [e]
      exact getD_length_sub_one term ' ' hne
    rw [hget]
    exact hlast
  have hafter : wordAtIdx (pre ++ term ++ post) (pre.length + term.length) = false := by
    rcases hpost with hp | ⟨d, post0, hp, hd⟩
    · subst hp
      rw [wordAtIdx]
      have : ¬ (pre.length + term.length < (pre ++ term ++ [] : List Char).length) := by
        simp [List.length_append]
      simp [this]
    · subst hp
      rw [wordAtIdx]
      have hget : (pre ++ term ++ (d :: post0)).getD (pre.length + term.length) ' ' = d := by
        have hlen2 : (pre ++ term).length ≤ pre.length + term.length := by
          simp [List.length_append]
        rw [List.getD_append_right (pre ++ term) (d :: post0) ' ' _ hlen2]
        simp [List.length_append]
      rw [hget, hd, Bool.and_false]
  rw [isWordMatch, List.any_eq_true]
  refine ⟨pre.length, List.mem_range.mpr (by simp [List.length_append]; omega), ?_⟩
  rw [Bool.and_eq_true, Bool.and_eq_true]
  refine ⟨⟨?_, ?_⟩, ?_⟩
  · -- the case-insensitive occurrence at pre.length
    rw [matchCIAt, Bool.and_eq_true]
    constructor
    · simp only [decide_eq_true_eq, List.length_append]
      omega
    · have hdrop : (pre ++ term ++ post).drop pre.length = term ++ post := by
        rw [List.append_assoc, List.drop_left]
      rw [hdrop]
      have htake : (term ++ post).take term.length = term := List.take_left term post
      rw [htake]
      simp
  · -- the boundary before the occurrence
    rw [boundaryAt]
    rcases hpre with hp | ⟨pre0, d, hp, hd⟩
    · subst hp
      rw [if_pos (show ([] : List Char).length = 0 from rfl)]
      rw [hcur]
      rfl
    · subst hp
      have hne0 : ¬ ((pre0 ++ [d]).length = 0) := by simp
      rw [if_neg hne0]
      have hprev : wordAtIdx (pre0 ++ [d] ++ term ++ post) ((pre0 ++ [d]).length - 1) =
          false := by
        rw [wordAtIdx]
        have hidx1 : (pre0 ++ [d]).length - 1 < (pre0 ++ [d]).length := by simp
        have hidx2 : (pre0 ++ [d]).length - 1 < ((pre0 ++ [d]) ++ term).length := by
          simp [List.length_append]
        have hget : (pre0 ++ [d] ++ term ++ post).getD ((pre0 ++ [d]).length - 1) ' ' =
            d := by
          rw [List.getD_append ((pre0 ++ [d]) ++ term) post ' ' _ hidx2]
          rw [List.getD_append (pre0 ++ [d]) term ' ' _ hidx1]
          have e : (pre0 ++ [d]).length - 1 = pre0.length := by simp
          rw [e, List.getD_append_right pre0 [d] ' ' _ le_rfl]
          simp
        rw [hget, hd, Bool.and_false]
      rw [hprev, hcur]
      rfl
  · -- the boundary after the occurrence
    rw [boundaryAt]
    have hne0 : ¬ (pre.length + term.length = 0) := by omega
    rw [if_neg hne0, hprevLast, hafter]
    rfl

/-- C2 counterexample: the query "react" occurs word-boundary anchored in
the title "React, hooks" (the comma is a boundary), but the per-term
500-point weight requires the term to equal a whitespace-split title word
("react," ≠ "react"), so only 1000 + 300 (prefix) = 1300 accrues —
below the claimed 1500. -/
theorem calculateScore_double_title_counterexample :
    isWordMatch (queryLowerOf "react") (jsLower ("React, hooks" : String).data) = true ∧
      queryTermsOf "react" = [queryLowerOf "react"] ∧
      2 ≤ (queryLowerOf "react").length ∧
      (calculateScore "react" ⟨"1", "", "React, hooks", "", "", false⟩).score = 1300 ∧
      (calculateScore "react" ⟨"1", "", "React, hooks", "", "", false⟩).score < 1500 := by
  refine ⟨by decide, by decide, by decide, by decide, by decide⟩

theorem word_not_space (c : Char) (h : isWordChar c = true) : isSpaceChar c = false := by
  cases hsp : isSpaceChar c with
  | false => rfl
  | true => rw [space_not_word c hsp] at h; exact Bool.noConfusion h

/-- C2 (amended): for a single-word (already trimmed) query of length ≥ 2
made of word characters whose lowercased form equals one of the title's
whitespace-separated words, the full-query exact-title-word weight (1000)
and the per-term exact-title-word weight (500) both trigger additively, so
the score is at least 1500 and the record appears in the search results
whenever it is in the collection. -/
theorem calculateScore_single_word_title (query : String) (w : Website)
    (hq : jsTrimS query = query)
    (hlen : 2 ≤ (queryLowerOf query).length)
    (hwc : ∀ c ∈ queryLowerOf query, isWordChar c = true)
    (hmem : queryLowerOf query ∈ titleWordsOf w.title) :
    isWordMatch (queryLowerOf query) (jsLower w.title.data) = true ∧
      1500 ≤ (calculateScore query w).score ∧
      ∀ (websites : List Website) (vocabulary : Option (List String)),
        w ∈ websites → w ∈ (smartSearch query websites vocabulary).websites := by
  have hne : queryLowerOf query ≠ [] := by
    intro h
    rw [h] at hlen
    exact absurd hlen (by decide)
  -- the query term occurs in the split title flanked by spaces or edges
  have hmem' : queryLowerOf query ∈ splitOnPred isSpaceChar (jsLower w.title.data) := by
    rw [titleWordsOf] at hmem
    exact (List.mem_filter.mp hmem).1
  obtain ⟨pre, post, heq, hpre, hpost⟩ :=
    splitOnPred_context isSpaceChar (jsLower w.title.data) _ hmem'
  have hfirst : isWordChar ((queryLowerOf query).headD ' ') = true :=
    hwc _ (headD_mem _ ' ' hne)
  have hlast : isWordChar ((queryLowerOf query).getLastD ' ') = true :=
    hwc _ (getLastD_mem _ ' ' hne)
  have hpre' : pre = [] ∨ ∃ pre0 d, pre = pre0 ++ [d] ∧ isWordChar d = false := by
    rcases hpre with h | ⟨pre0, d, hp, hd⟩
    · exact Or.inl h
    · exact Or.inr ⟨pre0, d, hp, space_not_word d hd⟩
  have hpost' : post = [] ∨ ∃ d post0, post = d :: post0 ∧ isWordChar d = false := by
    rcases hpost with h | ⟨d, post0, hp, hd⟩
    · exact Or.inl h
    · exact Or.inr ⟨d, post0, hp, space_not_word d hd⟩
  have hwm : isWordMatch (queryLowerOf query) (jsLower w.title.data) = true := by
    rw [heq]
    exact isWordMatch_append _ pre post hne hpre' hpost' hfirst hlast
  -- the trimmed query is the single query term
  have hqsep : ∀ c ∈ queryLowerOf query, isSpaceChar c = false :=
    fun c hc => word_not_space c (hwc c hc)
  have hterms : queryTermsOf query = [queryLowerOf query] := by
    rw [queryTermsOf, splitOnPred_single isSpaceChar _ hqsep hne]
    simp [hlen]
  -- both title weights fire
  have h500 : termTitleScore (queryLowerOf query) (titleWordsOf w.title) = 500 := by
    rw [termTitleScore, if_pos (List.elem_eq_true_of_mem hmem)]
  have h1000 : titleFullScore (queryLowerOf query) (jsLower w.title.data) = 1000 := by
    rw [titleFullScore, if_pos hwm]
  have hbase : 1500 ≤ baseScore query w := by
    rw [baseScore, hterms]
    simp only [List.map_cons, List.map_nil, List.sum_cons, List.sum_nil]
    rw [h1000]
    have hts : 500 ≤ termScore (queryLowerOf query) (titleWordsOf w.title)
        (jsLower w.description.data) (urlPartsOf w.url.data) := by
      rw [termScore, h500]
      omega
    omega
  have hscore : 1500 ≤ (calculateScore query w).score := by
    rw [calculateScore]
    dsimp only
    split <;> omega
  refine ⟨hwm, hscore, ?_⟩
  intro websites vocabulary hws
  have hq0 : query ≠ "" := by
    intro h
    rw [h] at hlen
    exact absurd hlen (by decide)
  have htrim : jsTrimS query ≠ "" := by
    rw [hq]
    exact hq0
  have hww : (smartSearch query websites vocabulary).websites =
      (searchSorted (jsTrimS query) websites).map (fun sw => sw.website) := by
    rw [smartSearch.eq_def, if_neg htrim]
  rw [hww, hq]
  have hsw : calculateScore query w ∈ searchScored query websites := by
    rw [searchScored, List.mem_filter]
    refine ⟨List.mem_map_of_mem _ hws, ?_⟩
    simp only [decide_eq_true_eq]
    omega
  have hsw2 : calculateScore query w ∈ searchSorted query websites :=
    (List.mem_insertionSort _).mpr hsw
  exact List.mem_map.mpr ⟨calculateScore query w, hsw2, rfl⟩

/-- Witness for C2 (amended) at query "hi" and title "hi there". -/
theorem calculateScore_single_word_title_witness :
    jsTrimS "hi" = "hi" ∧
      1500 ≤ (calculateScore "hi" ⟨"1", "", "hi there", "", "", false⟩).score ∧
      (⟨"1", "", "hi there", "", "", false⟩ : Website) ∈
        (smartSearch "hi" [⟨"1", "", "hi there", "", "", false⟩] none).websites :=
  have h := calculateScore_single_word_title "hi" ⟨"1", "", "hi there", "", "", false⟩
    (by decide) (by decide) (by decide) (by decide)
  ⟨by decide, h.2.1, h.2.2 [⟨"1", "", "hi there", "", "", false⟩] none (by decide)⟩

/-! ### Content recommender (`recommender.ts`)

`getDomain` calls `new URL(url).hostname` and strips `'www.'` with
`String.prototype.replace`, which removes the **first** occurrence of the
pattern anywhere in the string.  The hostname extraction of the platform
`URL` class is modelled for plain http(s) URLs: the characters after the
scheme up to the first `/`, `?`, `#` or `:`, lowercased; other inputs are
treated as parse failures, which the source's `catch` maps to `''`. -/

/-- Characters terminating the host portion of an http(s) URL. -/
def urlHostDelim (c : Char) : Bool := c == '/' || c == '?' || c == '#' || c == ':'

/-- Model of `new URL(url).hostname` (`none` = parse failure). -/
def hostOf (url : List Char) : Option (List Char) :=
  if "https://".data.isPrefixOf url then
    if (url.drop 8).takeWhile (fun c => !(urlHostDelim c)) = [] then none
    else some (((url.drop 8).takeWhile (fun c => !(urlHostDelim c))).map jsLowerChar)
  else if "http://".data.isPrefixOf url then
    if (url.drop 7).takeWhile (fun c => !(urlHostDelim c)) = [] then none
    else some (((url.drop 7).takeWhile (fun c => !(urlHostDelim c))).map jsLowerChar)
  else none

/-- JS `str.replace(pat, '')` for a plain-string pattern: remove the first
occurrence of `pat`, scanning left to right. -/
def removeFirstOcc (pat : List Char) : List Char → List Char
  | [] => []
  | c :: cs =>
      if pat.isPrefixOf (c :: cs) then (c :: cs).drop pat.length
      else c :: removeFirstOcc pat cs

/-- `getDomain`: hostname with the first `'www.'` removed, `""` on parse
failure. -/
def getDomain (url : String) : String :=
  match hostOf url.data with
  | some h => String.mk (removeFirstOcc "www.".data h)
  | none => ""

/-- The `+3` domain component of the recommender's composite score
(guarded by a non-empty current domain, as in the source). -/
def domainScore (cur other : Website) : Int :=
  if getDomain cur.url ≠ "" ∧ getDomain other.url = getDomain cur.url then 3 else 0

/-- The hostname of a record's URL, empty on parse failure (used to state
claims about `getDomain`). -/
def hostOrEmpty (url : String) : List Char := (hostOf url.data).getD []

/-- Stripping a **leading** `"www."` — the operation claim C7 describes. -/
def stripLeadingWww (h : List Char) : List Char :=
  if "www.".data.isPrefixOf h then h.drop 4 else h

/-- Claim C7's reading of the domain bonus: 3 exactly when the hostnames
with a leading `"www."` stripped agree. -/
def claimDomainBonus (cur other : Website) : Int :=
  if stripLeadingWww (hostOrEmpty other.url) = stripLeadingWww (hostOrEmpty cur.url)
  then 3 else 0

/-- First index at which `pat` occurs in `l` (spec-level formulation). -/
def firstOccIdx (pat l : List Char) : Option Nat :=
  (List.range (l.length + 1)).find? (fun i => pat.isPrefixOf (l.drop i))

/-- Removal of the first `"www."` occurrence, written from the index of the
first occurrence (the amended claim's formulation). -/
def stripFirstWww (l : List Char) : List Char :=
  match firstOccIdx "www.".data l with
  | some i => l.take i ++ l.drop (i + 4)
  | none => l

/-! ### Tokenizer, Jaccard similarity and composite score -/

/-- Characters kept by `tokenize`'s class `[^a-z0-9\s]` replacement (after
lowercasing). -/
def recTokenChar (c : Char) : Bool := ('a' ≤ c && c ≤ 'z') || ('0' ≤ c && c ≤ '9')

/-- `tokenize`: lowercase, strip non-alphanumerics, split, keep words of
length > 2, as a set.  (`tokenize('')` gives the empty set both through
the `!text` early return and through this pipeline.) -/
def tokenize (text : String) : Finset String :=
  (((splitOnPred isSpaceChar ((jsLower text.data).map
        (fun c => if recTokenChar c || isSpaceChar c then c else ' '))).filter
      (fun wd => decide (2 < wd.length))).map String.mk).toFinset

/-- `jaccardSimilarity` (0 when both sets are empty). -/
def jaccardSimilarity (A B : Finset String) : ℚ :=
  if A.card = 0 ∧ B.card = 0 then 0
  else ((A ∩ B).card : ℚ) / ((A ∪ B).card : ℚ)

/-- JS `Math.round` on the non-negative values used here: half-up. -/
def jsRound (q : ℚ) : Int := ⌊q + 1 / 2⌋

/-- Category component (+5 on case-sensitive equality). -/
def catScoreRec (cur other : Website) : Int :=
  if other.category = cur.category then 5 else 0

/-- Title-similarity component (rounded 0–4). -/
def titleScoreRec (cur other : Website) : Int :=
  if 0 < jaccardSimilarity (tokenize cur.title) (tokenize other.title)
  then jsRound (jaccardSimilarity (tokenize cur.title) (tokenize other.title) * 4)
  else 0

/-- Description-similarity component (rounded 0–3; only when the target has
description tokens). -/
def descScoreRec (cur other : Website) : Int :=
  if 0 < (tokenize cur.description).card then
    if 0 < jaccardSimilarity (tokenize cur.description) (tokenize other.description)
    then jsRound (jaccardSimilarity (tokenize cur.description) (tokenize other.description) * 3)
    else 0
  else 0

/-- The composite pair score of `findRelatedWebsites`, in source order. -/
def relScore (cur other : Website) : Int :=
  catScoreRec cur other + domainScore cur other + titleScoreRec cur other +
    descScoreRec cur other

/-- A candidate paired with its composite score (`reasons` omitted: nothing
depends on them). -/
structure RelScored where
  website : Website
  score : Int
deriving DecidableEq

/-- Candidates: everything but the target, scored, kept when the score is
positive. -/
def scoredCandidates (cur : Website) (allWebsites : List Website) : List RelScored :=
  ((allWebsites.filter (fun w => decide (w.id ≠ cur.id))).map
      (fun w => RelScored.mk w (relScore cur w))).filter
    (fun x => decide (0 < x.score))

/-- Candidates sorted by score descending (stable). -/
def sortedCandidates (cur : Website) (allWebsites : List Website) : List RelScored :=
  (scoredCandidates cur allWebsites).insertionSort (keyDesc RelScored.score)

/-- `findRelatedWebsites`: top `limit` of the sorted candidates. -/
def findRelatedWebsites (cur : Website) (allWebsites : List Website)
    (limit : Nat) : List Website :=
  ((sortedCandidates cur allWebsites).take limit).map (fun x => x.website)

theorem firstOccIdx_nil (pat : List Char) (hp : pat ≠ []) :
    firstOccIdx pat [] = none := by
  cases pat with
  | nil => exact absurd rfl hp
  | cons p ps => rfl

theorem firstOccIdx_cons (pat : List Char) (c : Char) (cs : List Char) :
    firstOccIdx pat (c :: cs) =
      if pat.isPrefixOf (c :: cs) then some 0
      else (firstOccIdx pat cs).map (· + 1) := by
  rw [firstOccIdx]
  have hr : List.range ((c :: cs).length + 1) =
      0 :: (List.range (cs.length + 1)).map (· + 1) := by
    rw [List.length_cons]
    exact List.range_succ_eq_map (cs.length + 1)
  rw [hr, List.find?_cons]
  by_cases h : pat.isPrefixOf (c :: cs)
  · rw [if_pos h]
    simp [h]
  · rw [if_neg h]
    have h0 : pat.isPrefixOf (c :: cs) = false := by
      cases hx : pat.isPrefixOf (c :: cs) with
      | false => rfl
      | true => exact absurd hx h
    simp only [List.drop_zero, h0]
    rw [List.find?_map, firstOccIdx]
    congr 1

theorem removeFirstOcc_eq_strip (pat : List Char) (hp : pat ≠ []) :
    ∀ l : List Char, removeFirstOcc pat l =
      match firstOccIdx pat l with
      | some i => l.take i ++ l.drop (i + pat.length)
      | none => l := by
  intro l
  induction l with
  | nil =>
      rw [firstOccIdx_nil pat hp]
      rfl
  | cons c cs ih =>
      rw [firstOccIdx_cons]
      by_cases h : pat.isPrefixOf (c :: cs)
      · rw [if_pos h]
        rw [removeFirstOcc, if_pos h]
        simp
      · rw [if_neg h]
        rw [removeFirstOcc, if_neg h, ih]
        cases hf : firstOccIdx pat cs with
        | none => rfl
        | some i =>
            have e : i + 1 + pat.length = i + pat.length + 1 := by omega
            simp [e, List.take_succ_cons, List.drop_succ_cons]

/-- The source's `replace('www.', '')` removes the first occurrence of
`"www."`, i.e. computes `stripFirstWww`. -/
theorem stripFirstWww_eq (l : List Char) :
    stripFirstWww l = removeFirstOcc "www.".data l := by
  rw [stripFirstWww, removeFirstOcc_eq_strip "www.".data (by decide) l]
  have h4 : ("www.".data).length = 4 := rfl
  simp only [h4]

theorem getDomain_eq (url : String) :
    getDomain url = String.mk (stripFirstWww (hostOrEmpty url)) := by
  rw [getDomain, hostOrEmpty]
  cases h : hostOf url.data with
  | none => simp [stripFirstWww_eq]; rfl
  | some h' => simp [stripFirstWww_eq]

/-- C7 counterexample: with hostnames "xfoo.com" and "xwww.foo.com" the
code removes the non-leading "www." from the second and awards +3, while
the claim's leading-"www." reading gives unequal domains and no bonus. -/
theorem domainScore_leading_www_counterexample :
    domainScore ⟨"1", "https://xfoo.com/a", "t", "c", "", false⟩
        ⟨"2", "https://xwww.foo.com/b", "t", "c", "", false⟩ = 3 ∧
      claimDomainBonus ⟨"1", "https://xfoo.com/a", "t", "c", "", false⟩
        ⟨"2", "https://xwww.foo.com/b", "t", "c", "", false⟩ = 0 := by
  refine ⟨by decide, by decide⟩

/-- C7 (amended): the recommender adds exactly 3 points iff the target's
hostname with the **first** occurrence of "www." removed is non-empty and
the other record's hostname with the first "www." occurrence removed
equals it (unparsable URLs contribute the empty hostname). -/
theorem domainScore_first_www (cur other : Website) :
    domainScore cur other =
      if stripFirstWww (hostOrEmpty cur.url) ≠ [] ∧
          stripFirstWww (hostOrEmpty other.url) = stripFirstWww (hostOrEmpty cur.url)
      then 3 else 0 := by
  rw [domainScore, getDomain_eq, getDomain_eq]
  refine if_congr (and_congr ?_ ?_) rfl rfl
  · constructor
    · intro hne he
      exact hne (by rw [he])
    · intro hne he
      apply hne
      have := congrArg String.data he
      simpa using this
  · constructor
    · intro he
      have := congrArg String.data he
      simpa using this
    · intro he
      rw [he]

theorem jaccardSimilarity_nonneg (A B : Finset String) :
    0 ≤ jaccardSimilarity A B := by
  rw [jaccardSimilarity]
  split
  · exact le_refl 0
  · positivity

theorem jsRound_nonneg (q : ℚ) (h : 0 ≤ q) : 0 ≤ jsRound q := by
  rw [jsRound]
  exact Int.le_floor.mpr (by push_cast; linarith)

theorem domainScore_nonneg (cur w : Website) : 0 ≤ domainScore cur w := by
  rw [domainScore]
  split <;> omega

theorem titleScoreRec_nonneg (cur w : Website) : 0 ≤ titleScoreRec cur w := by
  rw [titleScoreRec]
  split
  · exact jsRound_nonneg _ (by positivity)
  · exact le_refl 0

theorem descScoreRec_nonneg (cur w : Website) : 0 ≤ descScoreRec cur w := by
  rw [descScoreRec]
  split
  · split
    · exact jsRound_nonneg _ (by positivity)
    · exact le_refl 0
  · exact le_refl 0

/-- C10: a non-target record with the same category string (case-sensitive,
empty included) scores at least 5 and passes the positive-score filter,
making it a candidate for the returned list. -/
theorem relScore_category_ge (cur w : Website)
    (hid : w.id ≠ cur.id) (hcat : w.category = cur.category) :
    5 ≤ relScore cur w ∧
      ∀ allWebsites : List Website, w ∈ allWebsites →
        RelScored.mk w (relScore cur w) ∈ scoredCandidates cur allWebsites := by
  have hcs : catScoreRec cur w = 5 := by rw [catScoreRec, if_pos hcat]
  have h5 : 5 ≤ relScore cur w := by
    rw [relScore, hcs]
    have h1 := domainScore_nonneg cur w
    have h2 := titleScoreRec_nonneg cur w
    have h3 := descScoreRec_nonneg cur w
    omega
  refine ⟨h5, ?_⟩
  intro allWebsites hmem
  rw [scoredCandidates, List.mem_filter]
  refine ⟨List.mem_map.mpr ⟨w, List.mem_filter.mpr ⟨hmem, by simpa using hid⟩, rfl⟩, ?_⟩
  simp only [decide_eq_true_eq]
  omega

/-- Witness for C10 with equal categories and distinct ids. -/
theorem relScore_category_ge_witness :
    5 ≤ relScore ⟨"1", "", "t", "cat", "", false⟩ ⟨"2", "", "u", "cat", "", false⟩ ∧
      RelScored.mk ⟨"2", "", "u", "cat", "", false⟩
          (relScore ⟨"1", "", "t", "cat", "", false⟩ ⟨"2", "", "u", "cat", "", false⟩) ∈
        scoredCandidates ⟨"1", "", "t", "cat", "", false⟩
          [⟨"2", "", "u", "cat", "", false⟩] :=
  have h := relScore_category_ge ⟨"1", "", "t", "cat", "", false⟩
    ⟨"2", "", "u", "cat", "", false⟩ (by decide) (by decide)
  ⟨h.1, h.2 [⟨"2", "", "u", "cat", "", false⟩] (by decide)⟩

theorem scoredCandidates_mem (cur : Website) (allWebsites : List Website) :
    ∀ x ∈ scoredCandidates cur allWebsites,
      x = RelScored.mk x.website (relScore cur x.website) ∧ 0 < x.score ∧
        x.website.id ≠ cur.id := by
  intro x hx
  rw [scoredCandidates, List.mem_filter] at hx
  obtain ⟨hm, hs⟩ := hx
  obtain ⟨w, hwmem, hxe⟩ := List.mem_map.mp hm
  have hw2 := List.mem_filter.mp hwmem
  refine ⟨?_, ?_, ?_⟩
  · subst hxe
    rfl
  · simpa using hs
  · subst hxe
    simpa using hw2.2

/-- C6: `findRelatedWebsites` never returns the target, returns at most
`limit` records, each returned record has positive composite score, the
returned sequence is non-increasing in that score, and equal scores keep
their input order (stable sort). -/
theorem findRelatedWebsites_spec (cur : Website) (allWebsites : List Website)
    (limit : Nat) :
    (∀ w ∈ findRelatedWebsites cur allWebsites limit, w.id ≠ cur.id) ∧
      (findRelatedWebsites cur allWebsites limit).length ≤ limit ∧
      (∀ w ∈ findRelatedWebsites cur allWebsites limit, 0 < relScore cur w) ∧
      ((findRelatedWebsites cur allWebsites limit).map
          (fun w => relScore cur w)).Sorted (· ≥ ·) ∧
      (∀ s : Int,
        (sortedCandidates cur allWebsites).filter (fun x => decide (x.score = s)) =
          (scoredCandidates cur allWebsites).filter (fun x => decide (x.score = s))) := by
  have hmem : ∀ x ∈ (sortedCandidates cur allWebsites).take limit,
      x = RelScored.mk x.website (relScore cur x.website) ∧ 0 < x.score ∧
        x.website.id ≠ cur.id := by
    intro x hx
    have hx1 : x ∈ sortedCandidates cur allWebsites := List.mem_of_mem_take hx
    exact scoredCandidates_mem cur allWebsites x ((List.mem_insertionSort _).mp hx1)
  refine ⟨?_, ?_, ?_, ?_, ?_⟩
  · intro w hw
    rw [findRelatedWebsites] at hw
    obtain ⟨x, hx, hxe⟩ := List.mem_map.mp hw
    rw [← hxe]
    exact (hmem x hx).2.2
  · rw [findRelatedWebsites, List.length_map]
    exact List.length_take_le limit _
  · intro w hw
    rw [findRelatedWebsites] at hw
    obtain ⟨x, hx, hxe⟩ := List.mem_map.mp hw
    obtain ⟨hx1, hx2, -⟩ := hmem x hx
    have hsc : x.score = relScore cur x.website := congrArg RelScored.score hx1
    rw [← hxe]
    omega
  · rw [findRelatedWebsites, List.map_map]
    have hsorted : (sortedCandidates cur allWebsites).Pairwise
        (keyDesc RelScored.score) :=
      sorted_insertionSort_keyDesc RelScored.score _
    have htake : ((sortedCandidates cur allWebsites).take limit).Pairwise
        (keyDesc RelScored.score) :=
      hsorted.sublist (List.take_sublist limit _)
    have h2 : ((sortedCandidates cur allWebsites).take limit).Pairwise
        (fun a b => relScore cur b.website ≤ relScore cur a.website) := by
      refine htake.imp_of_mem ?_
      intro a b ha hb hr
      have ha1 : a.score = relScore cur a.website := congrArg RelScored.score (hmem a ha).1
      have hb1 : b.score = relScore cur b.website := congrArg RelScored.score (hmem b hb).1
      have hr' : b.score ≤ a.score := hr
      omega
    exact List.pairwise_map.mpr h2
  · intro s
    exact filter_insertionSort_keyDesc RelScored.score s _

/-- Witness for C6: a two-record collection where the non-target record
shares category and domain with the target. -/
theorem findRelatedWebsites_spec_witness :
    (⟨"2", "https://a.com/x", "u v", "cat", "", false⟩ : Website) ∈
        findRelatedWebsites ⟨"1", "https://a.com/", "t", "cat", "", false⟩
          [⟨"1", "https://a.com/", "t", "cat", "", false⟩,
            ⟨"2", "https://a.com/x", "u v", "cat", "", false⟩] 4 ∧
      (⟨"2", "https://a.com/x", "u v", "cat", "", false⟩ : Website).id ≠
        (⟨"1", "https://a.com/", "t", "cat", "", false⟩ : Website).id :=
  ⟨by decide,
    (findRelatedWebsites_spec ⟨"1", "https://a.com/", "t", "cat", "", false⟩
        [⟨"1", "https://a.com/", "t", "cat", "", false⟩,
          ⟨"2", "https://a.com/x", "u v", "cat", "", false⟩] 4).1
      ⟨"2", "https://a.com/x", "u v", "cat", "", false⟩ (by decide)⟩

end Memorai
